import Mathlib

/-!
Verification of the word-game session engine (Multiapples/word-game-bot).

Shallow embedding of the game's core logic, translated from the TypeScript
source:
  * `Tile`, `TileCount` (src/game/Tile.ts, src/game/TileCount.ts)
  * word resolution `wordToTiles` and scoring `scoreWord` (src/game/Game.ts)
  * the seeded xorshift32 generator `Random` (src/game/Random.ts)
  * message adjudication `onCollectPlayerMessage` and the per-wave state
    update of the run loop (src/game/Game.ts)
Stateful TypeScript methods become explicit state passing; JavaScript 32-bit
integer operations are modelled on `Nat`/`Int` with explicit reduction
modulo 2^32; methods that can throw (failed `assert`) or return `null`
return a sum type instead.
-/

namespace WordGame

/-- The tile kinds, translated from the `Tile` enum in src/game/Tile.ts
(26 letters plus the three wildcards, in source order). -/
inductive Tile where
  | A | B | C | D | E | F | G | H | I | J | K | L | M
  | N | O | P | Q | R | S | T | U | V | W | X | Y | Z
  | WILD | WILD_VOWEL | WILD_CONSONANT
deriving DecidableEq, Repr

/-- A tile inventory: the `TileCount` class of src/game/TileCount.ts keeps a
`Collection<Tile, number>` in which *every* tile kind always has an entry
(the constructor zero-fills all kinds), so it is modelled as a total map
from tile kinds to counts.  Cloning (`new TileCount([], other)`) is value
copying, which is implicit in the pure embedding. -/
def TileCount := Tile → Nat

/-- `TileCount.decrement` (src/game/TileCount.ts, lines 43-52): if the
count of `t` is above zero, subtract one and report `true`; otherwise
report `false` and leave the state unchanged.  The missing-entry assertion
of the source is unreachable here because the map is total. -/
def decrement (c : TileCount) (t : Tile) : Bool × TileCount :=
  if 0 < c t then
    (true, fun u => if u = t then c t - 1 else c u)
  else
    (false, c)

/-- The `TileCount` constructor taking a tile list (src/game/TileCount.ts,
lines 21-34): zero-fill every kind, then add one per occurrence in the
list; the resulting count of each kind is its multiplicity in the list. -/
def tileCountOf (tiles : List Tile) : TileCount :=
  fun t => tiles.count t

/-- Sequentially consume a list of tiles from an inventory by repeated
`decrement`; the boolean is `true` exactly when every single decrement
succeeded (no count was ever asked to go below zero). -/
def consumeAll (c : TileCount) : List Tile → Bool × TileCount
  | [] => (true, c)
  | t :: ts =>
    let (ok, c') := decrement c t
    let (ok', c'') := consumeAll c' ts
    (ok && ok', c'')

/-- The `Tile[char]` lookup used by the exact pass of `wordToTiles`
(src/game/Game.ts, line 586).  The word has already been checked to
contain only A-Z, so the catch-all branch is unreachable there. -/
def charToTile (ch : Char) : Tile :=
  match ch with
  | 'A' => .A | 'B' => .B | 'C' => .C | 'D' => .D | 'E' => .E
  | 'F' => .F | 'G' => .G | 'H' => .H | 'I' => .I | 'J' => .J
  | 'K' => .K | 'L' => .L | 'M' => .M | 'N' => .N | 'O' => .O
  | 'P' => .P | 'Q' => .Q | 'R' => .R | 'S' => .S | 'T' => .T
  | 'U' => .U | 'V' => .V | 'W' => .W | 'X' => .X | 'Y' => .Y
  | 'Z' => .Z
  | _ => .A

/-- The `/^[A-Z]*$/` character test of src/game/Game.ts, line 578. -/
def isCapAlpha (ch : Char) : Bool :=
  'A' ≤ ch && ch ≤ 'Z'

/-- Membership in the vowel string `"AEIOU"` (src/game/Game.ts, line 599). -/
def isVowelChar (ch : Char) : Bool :=
  ch ∈ ['A', 'E', 'I', 'O', 'U']

/-- Membership in the consonant string `"BCDFGHJKLMNPQRSTVWXZ"`
(src/game/Game.ts, line 607). -/
def isConsonantChar (ch : Char) : Bool :=
  ch ∈ ['B', 'C', 'D', 'F', 'G', 'H', 'J', 'K', 'L', 'M',
        'N', 'P', 'Q', 'R', 'S', 'T', 'V', 'W', 'X', 'Z']

/-- Exact pass of `wordToTiles` (src/game/Game.ts, lines 583-592): walk the
uppercased word left to right; for each letter try to decrement its exact
tile, recording the tile on success and a `none` placeholder ("null")
otherwise. -/
def exactPass : List Char → TileCount → List (Option Tile) × TileCount
  | [], c => ([], c)
  | ch :: rest, c =>
    let t := charToTile ch
    let (ok, c') := decrement c t
    let (slots, c'') := exactPass rest c'
    ((if ok then some t else none) :: slots, c'')

/-- One iteration of the non-Y wildcard loop body of `wordToTiles`
(src/game/Game.ts, lines 595-615) at a single position: skip positions
that are already resolved or hold a 'Y'; a vowel tries `WILD_VOWEL` then
`WILD`; a consonant tries `WILD_CONSONANT` then `WILD`; `none` is the
source's `return null` ("cannot spell word").  A character in neither
category is left as-is (no `else` branch in the source; unreachable for
A-Z words). -/
def fillNonYStep (ch : Char) (slot : Option Tile) (c : TileCount) :
    Option (Option Tile × TileCount) :=
  if slot.isSome || ch = 'Y' then some (slot, c)
  else if isVowelChar ch then
    match decrement c .WILD_VOWEL with
    | (true, c1) => some (some Tile.WILD_VOWEL, c1)
    | (false, _) =>
      match decrement c .WILD with
      | (true, c1) => some (some Tile.WILD, c1)
      | (false, _) => none
  else if isConsonantChar ch then
    match decrement c .WILD_CONSONANT with
    | (true, c1) => some (some Tile.WILD_CONSONANT, c1)
    | (false, _) =>
      match decrement c .WILD with
      | (true, c1) => some (some Tile.WILD, c1)
      | (false, _) => none
  else some (slot, c)

/-- One iteration of the Y-resolution loop body of `wordToTiles`
(src/game/Game.ts, lines 619-631): skip resolved or non-'Y' positions;
otherwise try `WILD_VOWEL`, then `WILD_CONSONANT`, then `WILD`. -/
def fillYStep (ch : Char) (slot : Option Tile) (c : TileCount) :
    Option (Option Tile × TileCount) :=
  if slot.isSome || ch ≠ 'Y' then some (slot, c)
  else
    match decrement c .WILD_VOWEL with
    | (true, c1) => some (some Tile.WILD_VOWEL, c1)
    | (false, _) =>
      match decrement c .WILD_CONSONANT with
      | (true, c1) => some (some Tile.WILD_CONSONANT, c1)
      | (false, _) =>
        match decrement c .WILD with
        | (true, c1) => some (some Tile.WILD, c1)
        | (false, _) => none

/-- The loop structure shared by the two wildcard passes of `wordToTiles`.
The source iterates `index` from 0 to `this.tiles.length` (the pool size),
reading `word[index]` and `wordAsTiles[index]`; positions at or past the
word's end read `undefined` and are skipped by the `!== null` test, so
each pass effectively visits the first `fuel = pool length` positions of
the word and leaves the rest untouched.  A `none` from the step aborts the
whole pass (the source's early `return null`). -/
def runPass
    (step : Char → Option Tile → TileCount → Option (Option Tile × TileCount)) :
    Nat → List (Char × Option Tile) → TileCount →
    Option (List (Option Tile) × TileCount)
  | _, [], c => some ([], c)
  | 0, ps, c => some (ps.map Prod.snd, c)
  | fuel + 1, (ch, slot) :: ps, c =>
    match step ch slot c with
    | none => none
    | some (slot', c') =>
      match runPass step fuel ps c' with
      | none => none
      | some (slots, c'') => some (slot' :: slots, c'')

/-- Non-Y wildcard pass of `wordToTiles` (src/game/Game.ts, lines
594-616). -/
def fillNonY : Nat → List (Char × Option Tile) → TileCount →
    Option (List (Option Tile) × TileCount) :=
  runPass fillNonYStep

/-- Y wildcard pass of `wordToTiles` (src/game/Game.ts, lines 618-632). -/
def fillY : Nat → List (Char × Option Tile) → TileCount →
    Option (List (Option Tile) × TileCount) :=
  runPass fillYStep

/-- Turn the final slot list into a tile list when every slot is filled
(the source's trailing `assert(tile !== null)` loop, lines 634-636). -/
def allSome : List (Option Tile) → Option (List Tile)
  | [] => some []
  | none :: _ => none
  | some t :: rest => (allSome rest).map (t :: ·)

/-- Outcome of one `wordToTiles` call: a successful spelling, the `null`
return ("cannot be spelled"), or the thrown `"null tile leftover."`
assertion. -/
inductive SpellResult where
  | spelt (tiles : List Tile)
  | cannotSpell
  | assertFailure
deriving DecidableEq, Repr

/-- `Game.wordToTiles` (src/game/Game.ts, lines 571-638), with the
enclosing session's pool size `this.tiles.length` made an explicit
argument `poolLen`.  The word is a character list; `String.toUpperCase` is
modelled characterwise by `Char.toUpper`.  The inventory argument is the
working clone (`new TileCount([], tileCount)`), which value semantics give
for free. -/
def wordToTiles (poolLen : Nat) (tileCount : TileCount) (word : List Char) :
    SpellResult :=
  if word.isEmpty then .cannotSpell
  else
    let w := word.map Char.toUpper
    if !(w.all isCapAlpha) then .cannotSpell
    else
      let (slots, c1) := exactPass w tileCount
      match fillNonY poolLen (w.zip slots) c1 with
      | none => .cannotSpell
      | some (slots2, c2) =>
        match fillY poolLen (w.zip slots2) c2 with
        | none => .cannotSpell
        | some (slots3, _) =>
          match allSome slots3 with
          | some ts => .spelt ts
          | none => .assertFailure

/-- Modelled from the spec: the word resolver exactly as §4.4 of the spec
describes it — after the exact pass, the non-Y wildcard pass and then the
Y pass visit *every* unresolved position of the word (not merely the first
`pool length` many).  Reuses the pass functions with enough fuel to cover
the whole word; only the loop bound differs from `wordToTiles`. -/
def wordToTilesSpec (tileCount : TileCount) (word : List Char) :
    SpellResult :=
  if word.isEmpty then .cannotSpell
  else
    let w := word.map Char.toUpper
    if !(w.all isCapAlpha) then .cannotSpell
    else
      let (slots, c1) := exactPass w tileCount
      match fillNonY w.length (w.zip slots) c1 with
      | none => .cannotSpell
      | some (slots2, c2) =>
        match fillY w.length (w.zip slots2) c2 with
        | none => .cannotSpell
        | some (slots3, _) =>
          match allSome slots3 with
          | some ts => .spelt ts
          | none => .assertFailure

/-- One step of the accumulating `switch` in `Game.scoreWord`
(src/game/Game.ts, lines 644-689): the pair carries (score, nonWildTiles). -/
def scoreStep (acc : Nat × Nat) (t : Tile) : Nat × Nat :=
  match t with
  | .E | .S | .I | .A | .R | .N | .T | .O | .L | .C | .D | .U =>
    (acc.1 + 1, acc.2 + 1)
  | .G | .P | .M | .H | .B | .Y | .F =>
    (acc.1 + 2, acc.2 + 1)
  | .V | .K | .W =>
    (acc.1 + 3, acc.2 + 1)
  | .Z | .X | .J | .Q =>
    (acc.1 + 5, acc.2 + 1)
  | .WILD | .WILD_CONSONANT | .WILD_VOWEL =>
    acc

/-- `Game.scoreWord` (src/game/Game.ts, lines 641-693): sum per-tile base
values while counting non-wild tiles, then add the length bonus
`Math.max(0, tiles.length - 3) * nonWildTiles` (truncated `Nat`
subtraction is exactly that `max`). -/
def scoreWord (tiles : List Tile) : Nat :=
  let acc := tiles.foldl scoreStep (0, 0)
  acc.1 + (tiles.length - 3) * acc.2

/-- Modelled from the spec (§4.5): the base value of a single tile by
rarity tier. -/
def baseValue : Tile → Nat
  | .E | .S | .I | .A | .R | .N | .T | .O | .L | .C | .D | .U => 1
  | .G | .P | .M | .H | .B | .Y | .F => 2
  | .V | .K | .W => 3
  | .Z | .X | .J | .Q => 5
  | .WILD | .WILD_VOWEL | .WILD_CONSONANT => 0

/-- Modelled from the spec (§4.5): whether a tile is one of the three
wildcards (contributing no base points and not counted in the length
bonus). -/
def isWildTile : Tile → Bool
  | .WILD | .WILD_VOWEL | .WILD_CONSONANT => true
  | _ => false

/-! ### The seeded generator (src/game/Random.ts)

The `Random` class stores a signed 32-bit integer state; here the state is
its unsigned 32-bit bit pattern (a `Nat` below 2^32), with JavaScript's
`<<`, `>>>` and `^` rendered as multiplication modulo 2^32, division, and
`Nat.xor`.  The float division of `nextFloat` is modelled exactly over
`ℚ`. -/

/-- The constructor's state initialisation `seed ^ 0 || -2147483648`
(src/game/Random.ts, line 16): coerce the seed to 32 bits; if that is
zero, use -2^31 instead (bit pattern 2^31). -/
def seedState (seed : Int) : Nat :=
  let m := (seed % 4294967296).toNat
  if m = 0 then 2147483648 else m

/-- Reinterpret an unsigned 32-bit pattern as the signed 32-bit value the
source's `number` holds. -/
def toInt32 (s : Nat) : Int :=
  if s % 4294967296 < 2147483648 then ((s % 4294967296 : Nat) : Int)
  else ((s % 4294967296 : Nat) : Int) - 4294967296

/-- `Random.nextIntNonZero` (src/game/Random.ts, lines 22-27): the three
xorshift32 steps `s ^= s << 13; s ^= s >>> 17; s ^= s << 5` on the
unsigned bit pattern. -/
def nextIntNonZero (s : Nat) : Nat :=
  let s1 := Nat.xor (s % 4294967296) ((s % 4294967296) * 8192 % 4294967296)
  let s2 := Nat.xor s1 (s1 / 131072)
  Nat.xor s2 (s2 * 32 % 4294967296)

/-- `Random.nextFloat` (src/game/Random.ts, lines 32-39): advance the
state, then map the signed draw `n` into `[0, 1)`; returns the value and
the new state. -/
def nextFloat (s : Nat) : ℚ × Nat :=
  let s' := nextIntNonZero s
  let n := toInt32 s'
  (if n < 0 then ((n : ℚ) + 2147483648) / 4294967295
   else ((n : ℚ) + 2147483647) / 4294967295, s')

/-- `Random.nextInt` (src/game/Random.ts, lines 45-51):
`Math.max(start, Math.min(end - 1, Math.floor(start + f * (end - start))))`
over a fresh `nextFloat` draw `f`.  The source asserts `start < end`
before computing; the formula itself is total here and the theorems carry
that precondition. -/
def nextInt (start «end» : Int) (s : Nat) : Int × Nat :=
  let (f, s') := nextFloat s
  (max start (min («end» - 1)
    ⌊(start : ℚ) + f * ((«end» : ℚ) - (start : ℚ))⌋), s')

/-- One requested draw in a fixed call sequence against a `Random`
instance. -/
inductive RngCall where
  | float
  | int (start «end» : Int)

/-- The value returned by one draw. -/
inductive RngOut where
  | ofFloat (q : ℚ)
  | ofInt (n : Int)
deriving DecidableEq

/-- Run a fixed sequence of `nextFloat`/`nextInt` calls from a state,
collecting the outputs: the observable behaviour of a `Random` instance
under a fixed call order. -/
def runTrace (s : Nat) : List RngCall → List RngOut
  | [] => []
  | .float :: rest =>
    let (q, s') := nextFloat s
    .ofFloat q :: runTrace s' rest
  | .int a b :: rest =>
    let (n, s') := nextInt a b s
    .ofInt n :: runTrace s' rest

/-! ### Session state and message adjudication (src/game/Game.ts)

Words and message bodies are character lists; `trim().toLowerCase()` is
modelled characterwise.  The mutable `Game` fields the adjudication and
the inter-wave part of the run loop touch become a record threaded
explicitly. -/

/-- A word as the adjudication handles it. -/
abbrev GWord := List Char

/-- The `Phase` enum of src/game/Game.ts, lines 21-30. -/
inductive Phase where
  | START | WAVE1 | INTERMISSION1 | WAVE2 | INTERMISSION2
  | WAVE3 | INTERMISSION3 | END
deriving DecidableEq, Repr

/-- Per-player ledger, from the `Player` class (src/game/Player.ts): wave
and total damage, objective tallies, and the wave/overall word→score maps
(`Collection.set` keeps insertion order and overwrites an existing key,
modelled on association lists by `setEntry`). -/
structure PlayerData where
  waveDamage : Nat
  totalDamage : Nat
  totalObjectivesCompleted : Nat
  totalDefended : Nat
  waveWords : List (GWord × Nat)
  allWords : List (GWord × Nat)
deriving DecidableEq, Repr

/-- `Collection.set` on an association list: overwrite the entry of `k` in
place if present, else append. -/
def setEntry (m : List (GWord × Nat)) (k : GWord) (v : Nat) :
    List (GWord × Nat) :=
  match m with
  | [] => [(k, v)]
  | (k', v') :: rest =>
    if k' = k then (k, v) :: rest else (k', v') :: setEntry rest k v

/-- `Player.attributeWord` (src/game/Player.ts): add the score to both
damage counters and record the word in both word maps. -/
def attributeWord (p : PlayerData) (w : GWord) (score : Nat) : PlayerData :=
  { p with
    waveDamage := p.waveDamage + score
    totalDamage := p.totalDamage + score
    waveWords := setEntry p.waveWords w score
    allWords := setEntry p.allWords w score }

/-- `Player.resetWave` (src/game/Player.ts): zero the wave damage and
clear the per-wave word map only. -/
def resetWave (p : PlayerData) : PlayerData :=
  { p with waveDamage := 0, waveWords := [] }

/-- The session-state fields of `Game` (src/game/Game.ts, lines 44-54)
that adjudication and the inter-wave updates read or write.  Players are
keyed by user id. -/
structure GameState where
  phase : Phase
  tiles : List Tile
  tileCount : TileCount
  wordsPlayed : List GWord
  players : List (String × PlayerData)

/-- Association-list lookup for the `players` collection. -/
def lookupPlayer (ps : List (String × PlayerData)) (uid : String) :
    Option PlayerData :=
  match ps with
  | [] => none
  | (k, p) :: rest => if k = uid then some p else lookupPlayer rest uid

/-- Apply `f` to the ledger stored under `uid` (the in-place mutation of
the player object in the source). -/
def updatePlayer (ps : List (String × PlayerData)) (uid : String)
    (f : PlayerData → PlayerData) : List (String × PlayerData) :=
  match ps with
  | [] => []
  | (k, p) :: rest =>
    if k = uid then (k, f p) :: rest else (k, p) :: updatePlayer rest uid f

/-- `msg.content.trim()` modelled on character lists: strip leading and
trailing whitespace. -/
def trimChars (s : GWord) : GWord :=
  ((s.dropWhile Char.isWhitespace).reverse.dropWhile Char.isWhitespace).reverse

/-- The normalisation `msg.content.trim().toLowerCase()` of
src/game/Game.ts, line 239, characterwise. -/
def normalizeMsg (s : GWord) : GWord :=
  (trimChars s).map Char.toLower

/-- The outcome of one collected message, standing for the reactions and
exceptional exits of `onCollectPlayerMessage`: ignored (not in a wave
phase), the 🔂/❌/🔢 rejection reactions, a scored acceptance, the
non-player assertion, or a propagated resolver assertion failure. -/
inductive Reaction where
  | ignored
  | duplicate
  | notAWord
  | insufficientTiles
  | scored (score : Nat)
  | assertNonPlayer
  | assertResolver
deriving DecidableEq, Repr

/-- `Game.onCollectPlayerMessage` (src/game/Game.ts, lines 229-290) as a
state transformer: check the phase, look up the author, normalise the
text, reject duplicates, consult the dictionary oracle, resolve against
the current pool, and on success append to `wordsPlayed`, score, and
attribute the word to the player. -/
def onCollectPlayerMessage (oracle : GWord → Bool) (st : GameState)
    (authorId : String) (content : GWord) : GameState × Reaction :=
  if ¬(st.phase = .WAVE1 ∨ st.phase = .WAVE2 ∨ st.phase = .WAVE3) then
    (st, .ignored)
  else
    match lookupPlayer st.players authorId with
    | none => (st, .assertNonPlayer)
    | some _ =>
      let word := normalizeMsg content
      if word ∈ st.wordsPlayed then (st, .duplicate)
      else if ¬ oracle word then (st, .notAWord)
      else
        match wordToTiles st.tiles.length st.tileCount word with
        | .cannotSpell => (st, .insufficientTiles)
        | .assertFailure => (st, .assertResolver)
        | .spelt ts =>
          let score := scoreWord ts
          ({ st with
              wordsPlayed := st.wordsPlayed ++ [word],
              players := updatePlayer st.players authorId
                (fun p => attributeWord p word score) },
           .scored score)

/-- The session-state mutations the run loop performs between waves
(src/game/Game.ts, lines 173-203): extend the tile pool with the new
wave's tiles and rebuild the derived count (`updateTilePool`), move to the
next phase, and reset every player's wave-scoped ledger.  `wordsPlayed`
has no corresponding update anywhere in the loop. -/
def waveTransition (st : GameState) (newTiles : List Tile) (ph : Phase) :
    GameState :=
  { st with
    tiles := st.tiles ++ newTiles
    tileCount := tileCountOf (st.tiles ++ newTiles)
    phase := ph
    players := st.players.map (fun kp => (kp.1, resetWave kp.2)) }

/-! ### Supporting lemmas -/

/-- A successful decrement lowers exactly the decremented kind by one. -/
theorem decrement_true {c : TileCount} {t : Tile} {c' : TileCount}
    (h : decrement c t = (true, c')) :
    ∀ k, c' k + (if k = t then 1 else 0) = c k := by
  intro k
  unfold decrement at h
  by_cases hpos : 0 < c t
  · rw [if_pos hpos] at h
    have h2 : c' = fun u => if u = t then c t - 1 else c u :=
      ((Prod.mk.inj h).2).symm
    subst h2
    by_cases hk : k = t
    · simp [hk]; omega
    · simp [hk]
  · rw [if_neg hpos] at h
    exact absurd (congrArg Prod.fst h) (by simp)

/-- A failed decrement leaves the inventory untouched and means the count
was zero. -/
theorem decrement_false {c : TileCount} {t : Tile} {c' : TileCount}
    (h : decrement c t = (false, c')) : c' = c ∧ c t = 0 := by
  unfold decrement at h
  by_cases hpos : 0 < c t
  · rw [if_pos hpos] at h
    exact absurd (congrArg Prod.fst h) (by simp)
  · rw [if_neg hpos] at h
    exact ⟨(Prod.mk.inj h).2.symm, by omega⟩

/-- If the inventory dominates the multiset of a tile list, consuming the
list tile by tile never hits an exhausted kind. -/
theorem consumeAll_of_count_le {ts : List Tile} :
    ∀ {c : TileCount}, (∀ k, ts.count k ≤ c k) → (consumeAll c ts).1 = true := by
  induction ts with
  | nil => intro c _; rfl
  | cons t ts ih =>
    intro c hle
    have hpos : 0 < c t := by
      have := hle t
      simp [List.count_cons] at this
      omega
    have hdec : decrement c t =
        (true, fun u => if u = t then c t - 1 else c u) := by
      unfold decrement
      rw [if_pos hpos]
    have hle' : ∀ k, ts.count k ≤ (fun u => if u = t then c t - 1 else c u) k := by
      intro k
      by_cases hk : k = t
      · subst hk
        have := hle k
        simp [List.count_cons] at this ⊢
        omega
      · have := hle k
        simp [List.count_cons, hk] at this ⊢
        omega
    have := ih hle'
    unfold consumeAll
    rw [hdec]
    simp [this]

/-- The scoring fold computes the summed base values and the number of
non-wild tiles on top of any starting accumulator. -/
theorem foldl_scoreStep (ts : List Tile) :
    ∀ a b : Nat, ts.foldl scoreStep (a, b) =
      (a + (ts.map baseValue).sum,
       b + (ts.filter (fun t => !isWildTile t)).length) := by
  induction ts with
  | nil => intro a b; simp
  | cons t ts ih =>
    intro a b
    rw [List.foldl_cons]
    cases t <;>
      simp [scoreStep, baseValue, isWildTile, ih, List.filter_cons] <;>
      omega

/-- `runPass` on an empty position list is the identity on the inventory,
for every fuel. -/
theorem runPass_nil (step) (n : Nat) (c : TileCount) :
    runPass step n [] c = some ([], c) := by
  cases n <;> rfl

/-- The wildcard passes do not depend on the loop bound once it covers
every position. -/
theorem runPass_fuel_ge (step) (ps : List (Char × Option Tile)) :
    ∀ (c : TileCount) (n m : Nat), ps.length ≤ n → ps.length ≤ m →
      runPass step n ps c = runPass step m ps c := by
  induction ps with
  | nil =>
    intro c n m _ _
    rw [runPass_nil, runPass_nil]
  | cons p ps ih =>
    intro c n m hn hm
    obtain ⟨ch, slot⟩ := p
    match n, m with
    | n' + 1, m' + 1 =>
      simp only [runPass]
      cases hstep : step ch slot c with
      | none => rfl
      | some r =>
        obtain ⟨slot', c'⟩ := r
        dsimp only
        rw [ih c' n' m' (by simpa using hn) (by simpa using hm)]

/-- A successful wildcard pass returns one slot per input position. -/
theorem runPass_length (step) (ps : List (Char × Option Tile)) :
    ∀ (c : TileCount) (n : Nat) (slots : List (Option Tile)) (c' : TileCount),
      runPass step n ps c = some (slots, c') → slots.length = ps.length := by
  induction ps with
  | nil =>
    intro c n slots c' h
    rw [runPass_nil] at h
    obtain ⟨rfl, rfl⟩ := Prod.mk.inj (Option.some.inj h)
    rfl
  | cons p ps ih =>
    intro c n slots c' h
    obtain ⟨ch, slot⟩ := p
    match n with
    | 0 =>
      simp only [runPass] at h
      obtain ⟨h1, -⟩ := Prod.mk.inj (Option.some.inj h)
      rw [← h1]
      simp
    | n' + 1 =>
      simp only [runPass] at h
      cases hstep : step ch slot c with
      | none => rw [hstep] at h; exact absurd h (by simp)
      | some r =>
        obtain ⟨slot', c1⟩ := r
        rw [hstep] at h
        dsimp only at h
        cases hrec : runPass step n' ps c1 with
        | none => rw [hrec] at h; exact absurd h (by simp)
        | some r2 =>
          obtain ⟨slots0, c2⟩ := r2
          rw [hrec] at h
          dsimp only at h
          obtain ⟨h1, -⟩ := Prod.mk.inj (Option.some.inj h)
          rw [← h1]
          simp [ih c1 n' slots0 c2 hrec]

/-- The exact pass returns one slot per letter of the word. -/
theorem exactPass_length (w : List Char) :
    ∀ c : TileCount, (exactPass w c).1.length = w.length := by
  induction w with
  | nil => intro c; rfl
  | cons ch rest ih =>
    intro c
    unfold exactPass
    dsimp only
    rcases hdec : decrement c (charToTile ch) with ⟨ok, c'⟩
    simp [ih c']

end WordGame

/-- C8: for every `TileCount` state and tile kind `k`, `decrement` with a
positive count returns `true` and lowers exactly that kind by one, while
`decrement` on a zero count returns `false` and leaves the entire state
unchanged no matter how many times it is repeated. -/
theorem WordGame.decrement_contract (c : WordGame.TileCount) (k : WordGame.Tile) :
    (0 < c k →
      (WordGame.decrement c k).1 = true ∧
      (WordGame.decrement c k).2 k = c k - 1 ∧
      ∀ u, u ≠ k → (WordGame.decrement c k).2 u = c u)
    ∧ (c k = 0 →
      WordGame.decrement c k = (false, c) ∧
      ∀ n, (fun c' => (WordGame.decrement c' k).2)^[n] c = c) := by
  constructor
  · intro hpos
    unfold WordGame.decrement
    rw [if_pos hpos]
    refine ⟨rfl, by simp, ?_⟩
    intro u hu
    simp [hu]
  · intro hzero
    have hfix : WordGame.decrement c k = (false, c) := by
      unfold WordGame.decrement
      rw [if_neg (by omega)]
    refine ⟨hfix, ?_⟩
    intro n
    exact Function.iterate_fixed (by rw [hfix]) n

/-- Witness for C8 at the concrete inventory `{A ↦ 1}`: decrementing `A`
succeeds and zeroes it; decrementing `B` fails and fixes the state. -/
theorem WordGame.decrement_contract_witness :
    (0 < WordGame.tileCountOf [WordGame.Tile.A] WordGame.Tile.A ∧
      (WordGame.decrement (WordGame.tileCountOf [WordGame.Tile.A]) WordGame.Tile.A).1 = true)
    ∧ (WordGame.tileCountOf [WordGame.Tile.A] WordGame.Tile.B = 0 ∧
      WordGame.decrement (WordGame.tileCountOf [WordGame.Tile.A]) WordGame.Tile.B
        = (false, WordGame.tileCountOf [WordGame.Tile.A])) :=
  ⟨⟨by decide,
    ((WordGame.decrement_contract (WordGame.tileCountOf [WordGame.Tile.A])
      WordGame.Tile.A).1 (by decide)).1⟩,
   ⟨by decide,
    ((WordGame.decrement_contract (WordGame.tileCountOf [WordGame.Tile.A])
      WordGame.Tile.B).2 (by decide)).1⟩⟩

/-- C4: `scoreWord` is the sum of the spec's per-tile base values (tier 1
= 1, tier 2 = 2, tier 3 = 3, tier 4 = 5, wildcards = 0) plus the length
bonus `max(0, totalTiles - 3)` times the non-wildcard tile count; a word
resolved entirely by wildcard tiles therefore scores exactly 0. -/
theorem WordGame.scoreWord_spec (ts : List WordGame.Tile) :
    WordGame.scoreWord ts =
      (ts.map WordGame.baseValue).sum +
        (ts.length - 3) * (ts.filter (fun t => !WordGame.isWildTile t)).length
    ∧ ((∀ t ∈ ts, WordGame.isWildTile t = true) → WordGame.scoreWord ts = 0) := by
  have hfold := WordGame.foldl_scoreStep ts 0 0
  constructor
  · unfold WordGame.scoreWord
    rw [hfold]
    simp
  · intro hwild
    have hfilter : ts.filter (fun t => !WordGame.isWildTile t) = [] := by
      rw [List.filter_eq_nil_iff]
      intro t ht
      simp [hwild t ht]
    have hbase : (ts.map WordGame.baseValue).sum = 0 := by
      rw [List.sum_eq_zero]
      intro v hv
      obtain ⟨t, ht, rfl⟩ := List.mem_map.mp hv
      have := hwild t ht
      cases t <;> simp_all [WordGame.isWildTile, WordGame.baseValue]
    unfold WordGame.scoreWord
    rw [hfold]
    simp [hfilter, hbase]

/-- Witness for C4 on a concrete all-wildcard tile list of length four:
its score evaluates to 0. -/
theorem WordGame.scoreWord_spec_witness :
    (∀ t ∈ [WordGame.Tile.WILD, WordGame.Tile.WILD_VOWEL,
            WordGame.Tile.WILD_CONSONANT, WordGame.Tile.WILD],
      WordGame.isWildTile t = true) ∧
    WordGame.scoreWord [WordGame.Tile.WILD, WordGame.Tile.WILD_VOWEL,
            WordGame.Tile.WILD_CONSONANT, WordGame.Tile.WILD] = 0 :=
  ⟨by decide,
   (WordGame.scoreWord_spec [WordGame.Tile.WILD, WordGame.Tile.WILD_VOWEL,
      WordGame.Tile.WILD_CONSONANT, WordGame.Tile.WILD]).2 (by decide)⟩

/-- C6: the generator is a pure function of its state and call order, so
two `Random` instances built from equal seeds yield identical output
traces for every fixed call sequence; moreover seed 0 yields exactly the
trace of seed -2147483648 (the documented remapping). -/
theorem WordGame.rng_deterministic (s1 s2 : Int) (h : s1 = s2) :
    (∀ calls, WordGame.runTrace (WordGame.seedState s1) calls
      = WordGame.runTrace (WordGame.seedState s2) calls)
    ∧ ∀ calls, WordGame.runTrace (WordGame.seedState 0) calls
      = WordGame.runTrace (WordGame.seedState (-2147483648)) calls := by
  constructor
  · intro calls
    rw [h]
  · intro calls
    have hseed : WordGame.seedState 0 = WordGame.seedState (-2147483648) := by
      decide
    rw [hseed]

/-- Witness for C6: equal seeds 7 and the 0 / -2^31 pair, on a two-call
sequence. -/
theorem WordGame.rng_deterministic_witness :
    WordGame.runTrace (WordGame.seedState 7) [WordGame.RngCall.float, WordGame.RngCall.int 0 5]
      = WordGame.runTrace (WordGame.seedState 7) [WordGame.RngCall.float, WordGame.RngCall.int 0 5]
    ∧ WordGame.runTrace (WordGame.seedState 0) [WordGame.RngCall.float, WordGame.RngCall.int 0 5]
      = WordGame.runTrace (WordGame.seedState (-2147483648))
          [WordGame.RngCall.float, WordGame.RngCall.int 0 5] :=
  ⟨(WordGame.rng_deterministic 7 7 rfl).1 [WordGame.RngCall.float, WordGame.RngCall.int 0 5],
   (WordGame.rng_deterministic 7 7 rfl).2 [WordGame.RngCall.float, WordGame.RngCall.int 0 5]⟩

/-- Reinterpreting any 32-bit pattern signed lands in [-2^31, 2^31). -/
theorem WordGame.toInt32_bounds (s : Nat) :
    -2147483648 ≤ WordGame.toInt32 s ∧ WordGame.toInt32 s < 2147483648 := by
  unfold WordGame.toInt32
  have h := Nat.mod_lt s (show 0 < 4294967296 by norm_num)
  split <;> omega

/-- The `nextFloat` value lies in [0, 1) from every generator state. -/
theorem WordGame.nextFloat_mem_Ico (s : Nat) :
    0 ≤ (WordGame.nextFloat s).1 ∧ (WordGame.nextFloat s).1 < 1 := by
  unfold WordGame.nextFloat
  obtain ⟨hlo, hhi⟩ := WordGame.toInt32_bounds (WordGame.nextIntNonZero s)
  set n := WordGame.toInt32 (WordGame.nextIntNonZero s) with hn
  have hloq : (-2147483648 : ℚ) ≤ (n : ℚ) := by exact_mod_cast hlo
  have hhiq : (n : ℚ) < 2147483648 := by exact_mod_cast hhi
  dsimp only
  split
  case isTrue hneg =>
    have hnegq : (n : ℚ) < 0 := by exact_mod_cast hneg
    constructor
    · apply div_nonneg _ (by norm_num)
      linarith
    · rw [div_lt_one (by norm_num)]
      linarith
  case isFalse hpos =>
    have hposq : (0 : ℚ) ≤ (n : ℚ) := by
      have : (0 : Int) ≤ n := by omega
      exact_mod_cast this
    constructor
    · apply div_nonneg _ (by norm_num)
      linarith
    · rw [div_lt_one (by norm_num)]
      linarith

/-- C7: from every generator state, `nextFloat` returns a value in the
half-open interval [0, 1), and for all integers `start < end`, `nextInt`
returns an integer clamped into [start, end). -/
theorem WordGame.random_ranges (s : Nat) (a b : Int) (hab : a < b) :
    (0 ≤ (WordGame.nextFloat s).1 ∧ (WordGame.nextFloat s).1 < 1)
    ∧ (a ≤ (WordGame.nextInt a b s).1 ∧ (WordGame.nextInt a b s).1 < b) := by
  refine ⟨WordGame.nextFloat_mem_Ico s, ?_, ?_⟩
  · unfold WordGame.nextInt
    exact le_max_left _ _
  · unfold WordGame.nextInt
    dsimp only
    apply max_lt hab
    exact lt_of_le_of_lt (min_le_left _ _) (by omega)

/-- Witness for C7 at state 1 and the range [0, 5). -/
theorem WordGame.random_ranges_witness :
    ((0 : Int) < 5) ∧
    ((0 ≤ (WordGame.nextFloat 1).1 ∧ (WordGame.nextFloat 1).1 < 1)
      ∧ ((0 : Int) ≤ (WordGame.nextInt 0 5 1).1 ∧ (WordGame.nextInt 0 5 1).1 < 5)) :=
  ⟨by decide, WordGame.random_ranges 1 0 5 (by decide)⟩

/-- C9: adjudicating a message never changes the session's tile pool nor
its derived tile inventory, whether the word is rejected or scored — the
resolver works on a discarded clone of the inventory. -/
theorem WordGame.adjudication_preserves_pool (oracle : WordGame.GWord → Bool)
    (st : WordGame.GameState) (a : String) (c : WordGame.GWord) :
    (WordGame.onCollectPlayerMessage oracle st a c).1.tiles = st.tiles ∧
    (WordGame.onCollectPlayerMessage oracle st a c).1.tileCount = st.tileCount := by
  unfold WordGame.onCollectPlayerMessage
  repeat' first
  | split
  | dsimp only
  all_goals exact ⟨rfl, rfl⟩

/-- C5: within one session a normalised word is scored at most once.  If
the sender is a bound player during a wave phase and the normalised text
is already in `wordsPlayed`, adjudication returns the unchanged state with
the duplicate signal — for every dictionary oracle and tile inventory, so
the rejection happens before those checks.  Moreover every adjudication
either leaves `wordsPlayed` unchanged (and scores nothing) or appends
exactly the normalised word (and scores it), and the inter-wave state
update never clears `wordsPlayed`. -/
theorem WordGame.duplicate_rejected_once
    (oracle : WordGame.GWord → Bool) (st : WordGame.GameState)
    (a : String) (c : WordGame.GWord)
    (hacc : st.phase = .WAVE1 ∨ st.phase = .WAVE2 ∨ st.phase = .WAVE3)
    (hplayer : (WordGame.lookupPlayer st.players a).isSome = true)
    (hdup : WordGame.normalizeMsg c ∈ st.wordsPlayed) :
    WordGame.onCollectPlayerMessage oracle st a c = (st, .duplicate)
    ∧ (∀ (oracle2 : WordGame.GWord → Bool) (st2 : WordGame.GameState)
        (a2 : String) (c2 : WordGame.GWord),
        ((WordGame.onCollectPlayerMessage oracle2 st2 a2 c2).1.wordsPlayed
            = st2.wordsPlayed
          ∧ ∀ n, (WordGame.onCollectPlayerMessage oracle2 st2 a2 c2).2
            ≠ .scored n)
        ∨ ((WordGame.onCollectPlayerMessage oracle2 st2 a2 c2).1.wordsPlayed
            = st2.wordsPlayed ++ [WordGame.normalizeMsg c2]
          ∧ ∃ n, (WordGame.onCollectPlayerMessage oracle2 st2 a2 c2).2
            = .scored n))
    ∧ (∀ (st3 : WordGame.GameState) (nt : List WordGame.Tile)
        (ph : WordGame.Phase),
        (WordGame.waveTransition st3 nt ph).wordsPlayed = st3.wordsPlayed) := by
  refine ⟨?_, ?_, ?_⟩
  · unfold WordGame.onCollectPlayerMessage
    rw [if_neg (by simp [hacc])]
    obtain ⟨p, hp'⟩ := Option.isSome_iff_exists.mp hplayer
    rw [hp']
    dsimp only
    rw [if_pos hdup]
  · intro oracle2 st2 a2 c2
    unfold WordGame.onCollectPlayerMessage
    repeat' first
    | split
    | dsimp only
    all_goals first
    | exact Or.inl ⟨rfl, fun n h => nomatch h⟩
    | exact Or.inr ⟨rfl, _, rfl⟩
  · intro st3 nt ph
    rfl

/-- A concrete one-player wave-1 session whose `wordsPlayed` already holds
the word "a", used to witness C5. -/
def WordGame.dupWitnessState : WordGame.GameState where
  phase := .WAVE1
  tiles := []
  tileCount := WordGame.tileCountOf []
  wordsPlayed := [['a']]
  players := [("u", ⟨0, 0, 0, 0, [], []⟩)]

/-- Witness for C5: in `dupWitnessState`, resubmitting "a" is rejected as
a duplicate with the state unchanged. -/
theorem WordGame.duplicate_rejected_once_witness :
    WordGame.onCollectPlayerMessage (fun _ => true)
      WordGame.dupWitnessState "u" ['a']
    = (WordGame.dupWitnessState, .duplicate) :=
  (WordGame.duplicate_rejected_once (fun _ => true)
    WordGame.dupWitnessState "u" ['a']
    (Or.inl rfl) (by decide) (by decide)).1

/-- C2 (refuting evaluation): with tile pool `[A]` (so the wildcard loops
scan only index 0) the word "aa" drives `wordToTiles` into the
`"null tile leftover."` assertion instead of the `null` failure signal:
the exact pass resolves position 0 and leaves position 1 unresolved, and
both wildcard passes stop before reaching it.  The resolver that scans
every word position, as the spec describes, fails cleanly instead. -/
theorem WordGame.wordToTiles_assert_reachable :
    WordGame.wordToTiles 1 (WordGame.tileCountOf [WordGame.Tile.A])
      ['a', 'a'] = .assertFailure
    ∧ WordGame.wordToTilesSpec (WordGame.tileCountOf [WordGame.Tile.A])
      ['a', 'a'] = .cannotSpell := by
  constructor
  · decide
  · decide

/-- C3 (counterexample): the resolver does not perform the advertised
wildcard passes over every unresolved position.  With pool `[A]` and word
"aa" both wildcard kinds are exhausted at position 1, so per the claim
resolution should fail immediately with the failure signal; instead the
code never visits position 1 (the wildcard loops are bounded by the pool
length) and hits the internal assertion. -/
theorem WordGame.wordToTiles_ne_spec :
    ¬ ∀ (poolLen : Nat) (c : WordGame.TileCount) (w : List Char),
        WordGame.wordToTiles poolLen c w = WordGame.wordToTilesSpec c w := by
  intro hall
  exact absurd (hall 1 (WordGame.tileCountOf [WordGame.Tile.A]) ['a', 'a'])
    (by decide)

/-- C3 (amended): whenever the word is no longer than the tile pool — so
the pool-length loop bound covers every position — `wordToTiles` performs
exactly the spec's deterministic passes: left-to-right exact pass, then
the non-Y wildcard pass (vowels `WILD_VOWEL` then `WILD`, consonants
`WILD_CONSONANT` then `WILD`, failing immediately with no backtracking),
then the Y pass (`WILD_VOWEL`, `WILD_CONSONANT`, `WILD`), over every
unresolved position of the word. -/
theorem WordGame.wordToTiles_eq_spec_of_le (poolLen : Nat)
    (c : WordGame.TileCount) (w : List Char) (h : w.length ≤ poolLen) :
    WordGame.wordToTiles poolLen c w = WordGame.wordToTilesSpec c w := by
  unfold WordGame.wordToTiles WordGame.wordToTilesSpec
  by_cases hempty : w.isEmpty
  · rw [if_pos hempty, if_pos hempty]
  · rw [if_neg hempty, if_neg hempty]
    dsimp only
    by_cases halpha : !((w.map Char.toUpper).all WordGame.isCapAlpha)
    · rw [if_pos halpha, if_pos halpha]
    · rw [if_neg halpha, if_neg halpha]
      rcases hE : WordGame.exactPass (w.map Char.toUpper) c with ⟨slots, c1⟩
      have hslots : slots.length = (w.map Char.toUpper).length := by
        have := WordGame.exactPass_length (w.map Char.toUpper) c
        rw [hE] at this
        exact this
      have hzip : ((w.map Char.toUpper).zip slots).length = w.length := by
        simp [List.length_zip, hslots]
      rw [show WordGame.fillNonY poolLen ((w.map Char.toUpper).zip slots) c1
            = WordGame.fillNonY ((w.map Char.toUpper).length)
                ((w.map Char.toUpper).zip slots) c1 from
        WordGame.runPass_fuel_ge WordGame.fillNonYStep _ c1 poolLen _
          (by simpa [hzip] using h) (by simp [hzip])]
      rcases hF : WordGame.fillNonY ((w.map Char.toUpper).length)
          ((w.map Char.toUpper).zip slots) c1 with - | ⟨slots2, c2⟩
      · rfl
      · dsimp only
        have hslots2 : slots2.length = w.length := by
          have := WordGame.runPass_length WordGame.fillNonYStep
            ((w.map Char.toUpper).zip slots) c1
            ((w.map Char.toUpper).length) slots2 c2 hF
          rw [hzip] at this
          exact this
        have hzip2 : ((w.map Char.toUpper).zip slots2).length = w.length := by
          simp [List.length_zip, hslots2]
        rw [show WordGame.fillY poolLen ((w.map Char.toUpper).zip slots2) c2
              = WordGame.fillY ((w.map Char.toUpper).length)
                  ((w.map Char.toUpper).zip slots2) c2 from
          WordGame.runPass_fuel_ge WordGame.fillYStep _ c2 poolLen _
            (by simpa [hzip2] using h) (by simp [hzip2])]

/-- Witness for the amended C3: the two-letter word "aa" against a
two-tile pool, where the resolver and the spec passes agree (both fail
cleanly). -/
theorem WordGame.wordToTiles_eq_spec_of_le_witness :
    (['a', 'a'] : List Char).length ≤ 2 ∧
    WordGame.wordToTiles 2 (WordGame.tileCountOf [WordGame.Tile.A]) ['a', 'a']
      = WordGame.wordToTilesSpec (WordGame.tileCountOf [WordGame.Tile.A])
          ['a', 'a'] :=
  ⟨by decide,
   WordGame.wordToTiles_eq_spec_of_le 2 (WordGame.tileCountOf [WordGame.Tile.A])
     ['a', 'a'] (by decide)⟩

/-! ### Counting and soundness invariants of the resolver passes -/
namespace WordGame

theorem count_filterMap_cons (o : Option Tile) (l : List (Option Tile)) (k : Tile) :
    ((o :: l).filterMap id).count k
      = (l.filterMap id).count k + (if o = some k then 1 else 0) := by
  cases o with
  | none => simp
  | some t =>
    by_cases ht : t = k
    · subst ht
      simp [List.count_cons]
    · simp [List.count_cons, ht, Ne.symm ht]

theorem exactPass_count (w : List Char) :
    ∀ (c : TileCount) (k : Tile),
      (exactPass w c).2 k + (((exactPass w c).1.filterMap id).count k) = c k := by
  induction w with
  | nil => intro c k; simp [exactPass]
  | cons ch rest ih =>
    intro c k
    unfold exactPass
    dsimp only
    rcases hdec : decrement c (charToTile ch) with ⟨ok, c'⟩
    dsimp only
    cases ok with
    | true =>
      have hd := decrement_true hdec k
      have hr := ih c' k
      rw [show (if true = true then some (charToTile ch) else none)
            = some (charToTile ch) from rfl]
      rw [count_filterMap_cons]
      by_cases hk : charToTile ch = k
      · subst hk
        rw [if_pos rfl]
        rw [if_pos rfl] at hd
        omega
      · rw [if_neg (by simp [hk])]
        rw [if_neg (fun hkk => hk hkk.symm)] at hd
        omega
    | false =>
      obtain ⟨hc, -⟩ := decrement_false hdec
      subst hc
      have hr := ih c' k
      rw [show (if false = true then some (charToTile ch) else none)
            = (none : Option Tile) from rfl]
      rw [count_filterMap_cons]
      rw [if_neg (fun hcon => Option.noConfusion hcon)]
      omega

end WordGame
namespace WordGame

theorem runPass_count (step)
    (hstep : ∀ ch slot c slot' c', step ch slot c = some (slot', c') →
      ∀ k, c' k + (if slot' = some k then 1 else 0)
        = c k + (if slot = some k then 1 else 0))
    (ps : List (Char × Option Tile)) :
    ∀ (c : TileCount) (n : Nat) (slots : List (Option Tile)) (c' : TileCount),
      runPass step n ps c = some (slots, c') →
      ∀ k, c' k + ((slots.filterMap id).count k)
        = c k + (((ps.map Prod.snd).filterMap id).count k) := by
  induction ps with
  | nil =>
    intro c n slots c' h k
    rw [runPass_nil] at h
    obtain ⟨rfl, rfl⟩ := Prod.mk.inj (Option.some.inj h)
    rfl
  | cons p ps ih =>
    intro c n slots c' h k
    obtain ⟨ch, slot⟩ := p
    match n with
    | 0 =>
      simp only [runPass] at h
      obtain ⟨h1, h2⟩ := Prod.mk.inj (Option.some.inj h)
      rw [← h1, ← h2]
    | n' + 1 =>
      simp only [runPass] at h
      cases hstepEq : step ch slot c with
      | none => rw [hstepEq] at h; exact absurd h (by simp)
      | some r =>
        obtain ⟨slot', c1⟩ := r
        rw [hstepEq] at h
        dsimp only at h
        cases hrec : runPass step n' ps c1 with
        | none => rw [hrec] at h; exact absurd h (by simp)
        | some r2 =>
          obtain ⟨slots0, c2⟩ := r2
          rw [hrec] at h
          dsimp only at h
          obtain ⟨h1, h2⟩ := Prod.mk.inj (Option.some.inj h)
          rw [← h1, ← h2]
          rw [count_filterMap_cons]
          rw [List.map_cons, count_filterMap_cons]
          dsimp only
          have hs := hstep ch slot c slot' c1 hstepEq k
          have hr := ih c1 n' slots0 c2 hrec k
          omega

end WordGame
namespace WordGame

theorem fillNonYStep_cases (ch : Char) (slot : Option Tile) (c : TileCount)
    (slot' : Option Tile) (c' : TileCount)
    (h : fillNonYStep ch slot c = some (slot', c')) :
    (slot' = slot ∧ c' = c) ∨
    (slot = none ∧ ∃ t, slot' = some t ∧ isWildTile t = true ∧
      decrement c t = (true, c')) := by
  unfold fillNonYStep at h
  by_cases hskip : (slot.isSome || ch = 'Y' : Bool)
  · rw [if_pos hskip] at h
    obtain ⟨h1, h2⟩ := Prod.mk.inj (Option.some.inj h)
    exact Or.inl ⟨h1.symm, h2.symm⟩
  · rw [if_neg hskip] at h
    have hnone : slot = none := by
      rcases slot with - | t
      · rfl
      · simp at hskip
    subst hnone
    by_cases hv : (isVowelChar ch : Bool)
    · rw [if_pos hv] at h
      rcases hd : decrement c .WILD_VOWEL with ⟨b, c1⟩
      rw [hd] at h
      cases b with
      | true =>
        dsimp only at h
        obtain ⟨h1, h2⟩ := Prod.mk.inj (Option.some.inj h)
        exact Or.inr ⟨rfl, Tile.WILD_VOWEL, h1.symm, rfl, by rw [hd, h2]⟩
      | false =>
        dsimp only at h
        rcases hd2 : decrement c .WILD with ⟨b2, c2⟩
        rw [hd2] at h
        cases b2 with
        | true =>
          dsimp only at h
          obtain ⟨h1, h2⟩ := Prod.mk.inj (Option.some.inj h)
          exact Or.inr ⟨rfl, Tile.WILD, h1.symm, rfl, by rw [hd2, h2]⟩
        | false => exact absurd h (by simp)
    · rw [if_neg hv] at h
      by_cases hcons : (isConsonantChar ch : Bool)
      · rw [if_pos hcons] at h
        rcases hd : decrement c .WILD_CONSONANT with ⟨b, c1⟩
        rw [hd] at h
        cases b with
        | true =>
          dsimp only at h
          obtain ⟨h1, h2⟩ := Prod.mk.inj (Option.some.inj h)
          exact Or.inr ⟨rfl, Tile.WILD_CONSONANT, h1.symm, rfl, by rw [hd, h2]⟩
        | false =>
          dsimp only at h
          rcases hd2 : decrement c .WILD with ⟨b2, c2⟩
          rw [hd2] at h
          cases b2 with
          | true =>
            dsimp only at h
            obtain ⟨h1, h2⟩ := Prod.mk.inj (Option.some.inj h)
            exact Or.inr ⟨rfl, Tile.WILD, h1.symm, rfl, by rw [hd2, h2]⟩
          | false => exact absurd h (by simp)
      · rw [if_neg hcons] at h
        obtain ⟨h1, h2⟩ := Prod.mk.inj (Option.some.inj h)
        exact Or.inl ⟨h1.symm, h2.symm⟩

theorem fillYStep_cases (ch : Char) (slot : Option Tile) (c : TileCount)
    (slot' : Option Tile) (c' : TileCount)
    (h : fillYStep ch slot c = some (slot', c')) :
    (slot' = slot ∧ c' = c) ∨
    (slot = none ∧ ∃ t, slot' = some t ∧ isWildTile t = true ∧
      decrement c t = (true, c')) := by
  unfold fillYStep at h
  by_cases hskip : (slot.isSome || ch ≠ 'Y' : Bool)
  · rw [if_pos hskip] at h
    obtain ⟨h1, h2⟩ := Prod.mk.inj (Option.some.inj h)
    exact Or.inl ⟨h1.symm, h2.symm⟩
  · rw [if_neg hskip] at h
    have hnone : slot = none := by
      rcases slot with - | t
      · rfl
      · simp at hskip
    subst hnone
    rcases hd : decrement c .WILD_VOWEL with ⟨b, c1⟩
    rw [hd] at h
    cases b with
    | true =>
      dsimp only at h
      obtain ⟨h1, h2⟩ := Prod.mk.inj (Option.some.inj h)
      exact Or.inr ⟨rfl, Tile.WILD_VOWEL, h1.symm, rfl, by rw [hd, h2]⟩
    | false =>
      dsimp only at h
      rcases hd2 : decrement c .WILD_CONSONANT with ⟨b2, c2⟩
      rw [hd2] at h
      cases b2 with
      | true =>
        dsimp only at h
        obtain ⟨h1, h2⟩ := Prod.mk.inj (Option.some.inj h)
        exact Or.inr ⟨rfl, Tile.WILD_CONSONANT, h1.symm, rfl, by rw [hd2, h2]⟩
      | false =>
        dsimp only at h
        rcases hd3 : decrement c .WILD with ⟨b3, c3⟩
        rw [hd3] at h
        cases b3 with
        | true =>
          dsimp only at h
          obtain ⟨h1, h2⟩ := Prod.mk.inj (Option.some.inj h)
          exact Or.inr ⟨rfl, Tile.WILD, h1.symm, rfl, by rw [hd3, h2]⟩
        | false => exact absurd h (by simp)

theorem stepCases_count {slot slot' : Option Tile} {c c' : TileCount}
    (hc : (slot' = slot ∧ c' = c) ∨
      (slot = none ∧ ∃ t, slot' = some t ∧ isWildTile t = true ∧
        decrement c t = (true, c'))) (k : Tile) :
    c' k + (if slot' = some k then 1 else 0)
      = c k + (if slot = some k then 1 else 0) := by
  rcases hc with ⟨rfl, rfl⟩ | ⟨rfl, t, rfl, -, hd⟩
  · rfl
  · have hdt := decrement_true hd k
    by_cases hk : t = k
    · subst hk
      rw [if_pos rfl, if_neg (fun hcon => Option.noConfusion hcon)]
      rw [if_pos rfl] at hdt
      omega
    · rw [if_neg (by simp [hk]), if_neg (fun hcon => Option.noConfusion hcon)]
      rw [if_neg (fun h2 => hk h2.symm)] at hdt
      omega

end WordGame
namespace WordGame

theorem exactPass_sound (w : List Char) :
    ∀ c : TileCount,
      List.Forall₂ (fun ch o => ∀ t : Tile, o = some t → t = charToTile ch)
        w (exactPass w c).1 := by
  induction w with
  | nil => intro c; exact List.Forall₂.nil
  | cons ch rest ih =>
    intro c
    unfold exactPass
    dsimp only
    rcases hdec : decrement c (charToTile ch) with ⟨ok, c'⟩
    dsimp only
    refine List.Forall₂.cons ?_ (ih c')
    intro t ht
    cases ok with
    | true =>
      simp only [if_pos rfl] at ht
      exact (Option.some.inj ht).symm
    | false => exact absurd ht (by simp)

theorem forall₂_refl_map_snd (l : List (Char × Option Tile)) :
    List.Forall₂
      (fun p o => ∀ t : Tile, o = some t → p.2 = some t ∨ isWildTile t = true)
      l (l.map Prod.snd) := by
  induction l with
  | nil => exact List.Forall₂.nil
  | cons p rest ih => exact List.Forall₂.cons (fun t ht => Or.inl ht) ih

theorem runPass_sound (step)
    (hstep : ∀ ch slot c slot' c', step ch slot c = some (slot', c') →
      (slot' = slot ∧ c' = c) ∨
      (slot = none ∧ ∃ t, slot' = some t ∧ isWildTile t = true ∧
        decrement c t = (true, c')))
    (ps : List (Char × Option Tile)) :
    ∀ (c : TileCount) (n : Nat) (slots : List (Option Tile)) (c' : TileCount),
      runPass step n ps c = some (slots, c') →
      List.Forall₂
        (fun p o => ∀ t : Tile, o = some t → p.2 = some t ∨ isWildTile t = true)
        ps slots := by
  induction ps with
  | nil =>
    intro c n slots c' h
    rw [runPass_nil] at h
    obtain ⟨h1, -⟩ := Prod.mk.inj (Option.some.inj h)
    rw [← h1]
    exact List.Forall₂.nil
  | cons p ps ih =>
    intro c n slots c' h
    obtain ⟨ch, slot⟩ := p
    match n with
    | 0 =>
      simp only [runPass] at h
      obtain ⟨h1, -⟩ := Prod.mk.inj (Option.some.inj h)
      rw [← h1]
      exact forall₂_refl_map_snd _
    | n' + 1 =>
      simp only [runPass] at h
      cases hstepEq : step ch slot c with
      | none => rw [hstepEq] at h; exact absurd h (by simp)
      | some r =>
        obtain ⟨slot', c1⟩ := r
        rw [hstepEq] at h
        dsimp only at h
        cases hrec : runPass step n' ps c1 with
        | none => rw [hrec] at h; exact absurd h (by simp)
        | some r2 =>
          obtain ⟨slots0, c2⟩ := r2
          rw [hrec] at h
          dsimp only at h
          obtain ⟨h1, -⟩ := Prod.mk.inj (Option.some.inj h)
          rw [← h1]
          refine List.Forall₂.cons ?_ (ih c1 n' slots0 c2 hrec)
          intro t ht
          rcases hstep ch slot c slot' c1 hstepEq with ⟨rfl, -⟩ | ⟨-, t', ht', hw, -⟩
          · exact Or.inl ht
          · subst ht'
            rw [Option.some.inj ht] at hw
            exact Or.inr hw

theorem allSome_eq_map_some (slots : List (Option Tile)) :
    ∀ ts : List Tile, allSome slots = some ts → slots = ts.map some := by
  induction slots with
  | nil =>
    intro ts h
    rw [show ts = [] from (Option.some.inj h).symm]
    rfl
  | cons o rest ih =>
    intro ts h
    cases o with
    | none => exact absurd h (by simp [allSome])
    | some t =>
      unfold allSome at h
      cases hrec : allSome rest with
      | none => rw [hrec] at h; exact absurd h (by simp)
      | some ts' =>
        rw [hrec] at h
        dsimp only [Option.map] at h
        rw [show ts = t :: ts' from (Option.some.inj h).symm]
        simp [ih ts' hrec]

theorem filterMap_id_map_some (ts : List Tile) :
    (ts.map some).filterMap id = ts := by
  induction ts with
  | nil => rfl
  | cons t rest ih => simp [ih]

theorem wordToTiles_spelt_main (poolLen : Nat) (c : TileCount)
    (word : List Char) (ts : List Tile)
    (h : wordToTiles poolLen c word = .spelt ts) :
    ts.length = word.length ∧ (∀ k, ts.count k ≤ c k) ∧
    ∀ (i : Nat) (hi : i < ts.length) (hw : i < word.length),
      ts.get ⟨i, hi⟩
          = charToTile (Char.toUpper (word.get ⟨i, hw⟩))
        ∨ isWildTile (ts.get ⟨i, hi⟩) = true := by
  unfold wordToTiles at h
  by_cases hempty : word.isEmpty
  · rw [if_pos hempty] at h
    exact absurd h (by simp)
  · rw [if_neg hempty] at h
    dsimp only at h
    by_cases halpha : !((word.map Char.toUpper).all isCapAlpha)
    · rw [if_pos halpha] at h
      exact absurd h (by simp)
    · rw [if_neg halpha] at h
      rcases hE : exactPass (word.map Char.toUpper) c with ⟨slots1, c1⟩
      rw [hE] at h
      dsimp only at h
      have hlen1 : slots1.length = word.length := by
        have := exactPass_length (word.map Char.toUpper) c
        rw [hE] at this
        simpa using this
      have hzip1 : ((word.map Char.toUpper).zip slots1).map Prod.snd = slots1 :=
        List.map_snd_zip _ _ (by simp [hlen1])
      have hziplen1 : ((word.map Char.toUpper).zip slots1).length = word.length := by
        simp [List.length_zip, hlen1]
      cases hF1 : fillNonY poolLen ((word.map Char.toUpper).zip slots1) c1 with
      | none => rw [hF1] at h; exact absurd h (by simp)
      | some r1 =>
        obtain ⟨slots2, c2⟩ := r1
        rw [hF1] at h
        dsimp only at h
        have hlen2 : slots2.length = word.length := by
          have := runPass_length fillNonYStep _ _ _ _ _ hF1
          rw [hziplen1] at this
          exact this
        have hzip2 : ((word.map Char.toUpper).zip slots2).map Prod.snd = slots2 :=
          List.map_snd_zip _ _ (by simp [hlen2])
        have hziplen2 : ((word.map Char.toUpper).zip slots2).length = word.length := by
          simp [List.length_zip, hlen2]
        cases hF2 : fillY poolLen ((word.map Char.toUpper).zip slots2) c2 with
        | none => rw [hF2] at h; exact absurd h (by simp)
        | some r2 =>
          obtain ⟨slots3, c3⟩ := r2
          rw [hF2] at h
          dsimp only at h
          have hlen3 : slots3.length = word.length := by
            have := runPass_length fillYStep _ _ _ _ _ hF2
            rw [hziplen2] at this
            exact this
          cases hAS : allSome slots3 with
          | none => rw [hAS] at h; exact absurd h (by simp)
          | some ts' =>
            rw [hAS] at h
            dsimp only at h
            have hts : ts = ts' := (SpellResult.spelt.inj h).symm
            subst hts
            have hmap : slots3 = ts.map some := allSome_eq_map_some slots3 ts hAS
            have htslen : ts.length = word.length := by
              have : (ts.map some).length = word.length := by
                rw [← hmap]; exact hlen3
              simpa using this
            refine ⟨htslen, ?_, ?_⟩
            · intro k
              have e1 := exactPass_count (word.map Char.toUpper) c k
              rw [hE] at e1
              dsimp only at e1
              have e2 := runPass_count fillNonYStep
                (fun ch slot cc slot' cc' hstep k =>
                  stepCases_count (fillNonYStep_cases ch slot cc slot' cc' hstep) k)
                _ _ _ _ _ hF1 k
              rw [hzip1] at e2
              have e3 := runPass_count fillYStep
                (fun ch slot cc slot' cc' hstep k =>
                  stepCases_count (fillYStep_cases ch slot cc slot' cc' hstep) k)
                _ _ _ _ _ hF2 k
              rw [hzip2] at e3
              have hcount : (slots3.filterMap id).count k = ts.count k := by
                rw [hmap, filterMap_id_map_some]
              rw [hcount] at e3
              omega
            · intro i hi hw
              have f0 := exactPass_sound (word.map Char.toUpper) c
              rw [hE] at f0
              have f1 := runPass_sound fillNonYStep
                (fun ch slot cc slot' cc' hstep =>
                  fillNonYStep_cases ch slot cc slot' cc' hstep)
                _ _ _ _ _ hF1
              have f2 := runPass_sound fillYStep
                (fun ch slot cc slot' cc' hstep =>
                  fillYStep_cases ch slot cc slot' cc' hstep)
                _ _ _ _ _ hF2
              have hiw : i < (word.map Char.toUpper).length := by simpa using hw
              have hi1 : i < slots1.length := by rw [hlen1]; exact hw
              have hi2 : i < slots2.length := by rw [hlen2]; exact hw
              have hi3 : i < slots3.length := by rw [hlen3]; exact hw
              have hiz1 : i < ((word.map Char.toUpper).zip slots1).length := by
                rw [hziplen1]; exact hw
              have hiz2 : i < ((word.map Char.toUpper).zip slots2).length := by
                rw [hziplen2]; exact hw
              have hget3 : slots3.get ⟨i, hi3⟩ = some (ts.get ⟨i, hi⟩) := by
                have := List.get_of_eq hmap ⟨i, hi3⟩
                rw [this]
                simp
              have p2 := f2.get hiz2 hi3 (ts.get ⟨i, hi⟩) hget3
              have hz2 : ((word.map Char.toUpper).zip slots2).get ⟨i, hiz2⟩
                  = ((word.map Char.toUpper).get ⟨i, hiw⟩, slots2.get ⟨i, hi2⟩) := by
                simp [List.get_eq_getElem, List.getElem_zip]
              rw [hz2] at p2
              rcases p2 with hp2 | hwild
              · have p1 := f1.get hiz1 hi2 (ts.get ⟨i, hi⟩) hp2
                have hz1 : ((word.map Char.toUpper).zip slots1).get ⟨i, hiz1⟩
                    = ((word.map Char.toUpper).get ⟨i, hiw⟩, slots1.get ⟨i, hi1⟩) := by
                  simp [List.get_eq_getElem, List.getElem_zip]
                rw [hz1] at p1
                rcases p1 with hp1 | hwild
                · have p0 := f0.get hiw hi1 (ts.get ⟨i, hi⟩) hp1
                  left
                  rw [p0]
                  congr 1
                  simp [List.get_eq_getElem]
                · exact Or.inr hwild
              · exact Or.inr hwild

end WordGame
namespace WordGame


end WordGame

namespace WordGame

/-- `isWildTile` holds exactly on the three wildcard kinds. -/
theorem isWildTile_eq_true_iff (t : Tile) :
    isWildTile t = true ↔
      t = .WILD ∨ t = .WILD_VOWEL ∨ t = .WILD_CONSONANT := by
  cases t <;> simp [isWildTile]

end WordGame

/-- C1: whenever `wordToTiles` succeeds with tile list `ts`, the list has
one tile per letter of the word, and consuming `ts` tile by tile from a
clone of the given inventory succeeds throughout — no kind's count is
ever asked to go below zero. -/
theorem WordGame.wordToTiles_consumable (poolLen : Nat)
    (c : WordGame.TileCount) (word : List Char) (ts : List WordGame.Tile)
    (h : WordGame.wordToTiles poolLen c word = .spelt ts) :
    ts.length = word.length ∧ (WordGame.consumeAll c ts).1 = true :=
  have hm := WordGame.wordToTiles_spelt_main poolLen c word ts h
  ⟨hm.1, WordGame.consumeAll_of_count_le hm.2.1⟩

/-- Witness for C1: the word "bat" against the inventory `{A:1,B:1,T:1}`
resolves to `[B, A, T]`, which consumes cleanly. -/
theorem WordGame.wordToTiles_consumable_witness :
    (WordGame.wordToTiles 3
        (WordGame.tileCountOf [WordGame.Tile.B, WordGame.Tile.A, WordGame.Tile.T])
        ['b', 'a', 't']
      = .spelt [WordGame.Tile.B, WordGame.Tile.A, WordGame.Tile.T])
    ∧ ([WordGame.Tile.B, WordGame.Tile.A, WordGame.Tile.T].length
        = (['b', 'a', 't'] : List Char).length
      ∧ (WordGame.consumeAll
          (WordGame.tileCountOf [WordGame.Tile.B, WordGame.Tile.A, WordGame.Tile.T])
          [WordGame.Tile.B, WordGame.Tile.A, WordGame.Tile.T]).1 = true) :=
  ⟨by decide,
   WordGame.wordToTiles_consumable 3
     (WordGame.tileCountOf [WordGame.Tile.B, WordGame.Tile.A, WordGame.Tile.T])
     ['b', 'a', 't'] [WordGame.Tile.B, WordGame.Tile.A, WordGame.Tile.T]
     (by decide)⟩

/-- C10: on success every position of the result holds either the exact
letter tile of its own (uppercased) letter or one of the three wildcard
tiles; no position ever receives a different letter's tile. -/
theorem WordGame.wordToTiles_letters (poolLen : Nat)
    (c : WordGame.TileCount) (word : List Char) (ts : List WordGame.Tile)
    (h : WordGame.wordToTiles poolLen c word = .spelt ts) :
    ts.length = word.length ∧
    ∀ (i : Nat) (hi : i < ts.length) (hw : i < word.length),
      ts.get ⟨i, hi⟩
          = WordGame.charToTile (Char.toUpper (word.get ⟨i, hw⟩))
        ∨ ts.get ⟨i, hi⟩ = WordGame.Tile.WILD
        ∨ ts.get ⟨i, hi⟩ = WordGame.Tile.WILD_VOWEL
        ∨ ts.get ⟨i, hi⟩ = WordGame.Tile.WILD_CONSONANT := by
  have hm := WordGame.wordToTiles_spelt_main poolLen c word ts h
  refine ⟨hm.1, ?_⟩
  intro i hi hw
  rcases hm.2.2 i hi hw with hex | hwild
  · exact Or.inl hex
  · exact Or.inr ((WordGame.isWildTile_eq_true_iff _).mp hwild)

/-- Witness for C10: the word "yay" against an all-wildcard inventory
resolves to `[WILD_CONSONANT, WILD_VOWEL, WILD]`, every position a
wildcard. -/
theorem WordGame.wordToTiles_letters_witness :
    (WordGame.wordToTiles 8
        (WordGame.tileCountOf
          [WordGame.Tile.WILD_VOWEL, WordGame.Tile.WILD, WordGame.Tile.WILD_CONSONANT])
        ['y', 'a', 'y']
      = .spelt [WordGame.Tile.WILD_CONSONANT, WordGame.Tile.WILD_VOWEL, WordGame.Tile.WILD])
    ∧ ([WordGame.Tile.WILD_CONSONANT, WordGame.Tile.WILD_VOWEL, WordGame.Tile.WILD].length
        = (['y', 'a', 'y'] : List Char).length
      ∧ ∀ (i : Nat)
          (hi : i < [WordGame.Tile.WILD_CONSONANT, WordGame.Tile.WILD_VOWEL,
            WordGame.Tile.WILD].length)
          (hw : i < (['y', 'a', 'y'] : List Char).length),
          [WordGame.Tile.WILD_CONSONANT, WordGame.Tile.WILD_VOWEL,
              WordGame.Tile.WILD].get ⟨i, hi⟩
              = WordGame.charToTile
                  (Char.toUpper ((['y', 'a', 'y'] : List Char).get ⟨i, hw⟩))
            ∨ [WordGame.Tile.WILD_CONSONANT, WordGame.Tile.WILD_VOWEL,
                WordGame.Tile.WILD].get ⟨i, hi⟩ = WordGame.Tile.WILD
            ∨ [WordGame.Tile.WILD_CONSONANT, WordGame.Tile.WILD_VOWEL,
                WordGame.Tile.WILD].get ⟨i, hi⟩ = WordGame.Tile.WILD_VOWEL
            ∨ [WordGame.Tile.WILD_CONSONANT, WordGame.Tile.WILD_VOWEL,
                WordGame.Tile.WILD].get ⟨i, hi⟩ = WordGame.Tile.WILD_CONSONANT) :=
  ⟨by decide,
   WordGame.wordToTiles_letters 8
     (WordGame.tileCountOf
       [WordGame.Tile.WILD_VOWEL, WordGame.Tile.WILD, WordGame.Tile.WILD_CONSONANT])
     ['y', 'a', 'y']
     [WordGame.Tile.WILD_CONSONANT, WordGame.Tile.WILD_VOWEL, WordGame.Tile.WILD]
     (by decide)⟩
